import Mathlib

/-!
Verification of the UI automation harness of Protocol: Silent Night.

The repository has two source files.

`src/fix_tests.py` reads the scenario file `e2e/full-gameplay.spec.ts`,
applies five Python `str.replace` rewrites (each turning a forced
pointer-based `.click(...)` call on one of the four flaky controls into a
script-invoked `.evaluate(el => el.click())` call) and writes the result
back to the same file.  We embed file contents as `List Char`,
`str.replace` as `replaceAll` (leftmost, non-overlapping, replace-all
semantics, exactly as Python's `str.replace` for a non-empty pattern;
every pattern used by the script is non-empty), and the whole patch as
`fixContent` / `runFixTests`.

`src/verification/verify_focus.py` is a focus-state probe: navigate to
the game, wait for the start-screen marker text, locate the first button
containing "MECHA-SANTA", focus it, take a screenshot; the `__main__`
block launches a browser, opens a page, runs the probe inside a
`try` / `except Exception` / `finally` frame, prints a single
`Error: ...` line on failure, and closes the browser in the `finally`
block.  We embed the probe as a step-by-step function `runProbe` over an
environment `Env` that carries the rendered page (a flat list of
elements in document order, each with its role and accessible text)
together with an optional injected exception for every primitive step,
and the `__main__` block as `runMain` over an additional `Setup` of the
two acquisition steps that happen before the `try` frame.
-/

set_option maxHeartbeats 2000000
set_option maxRecDepth 100000

namespace SilentNight

/-! ### Definitions: the patch script `src/fix_tests.py` -/

/-- Embedding of Python `content.replace(pat, rep)` for a non-empty
pattern `pat`: scan left to right; at each position, if `pat` starts
there, emit `rep` and continue after the matched occurrence, otherwise
keep the character.  (For `pat = []` this returns the input unchanged;
the patch script only ever replaces non-empty literals.) -/
def replaceAll (pat rep : List Char) : List Char → List Char
  | [] => []
  | c :: s =>
    if pat ≠ [] ∧ pat <+: (c :: s) then
      rep ++ replaceAll pat rep (List.drop (pat.length - 1) s)
    else
      c :: replaceAll pat rep s
termination_by s => s.length
decreasing_by
  · simp only [List.length_drop, List.length_cons]
    omega
  · simp only [List.length_cons]
    omega

/-- Forced pointer click on the MECHA-SANTA unit-select control: source
string of the first replace in `fix_tests.py`. -/
def srcMecha : List Char :=
  ("await page.getByRole(\x27button\x27, \x7b name: /MECHA-SANTA/ \x7d).click(\x7b force: true, noWaitAfter: true \x7d);").data

/-- Script-invoked click on the MECHA-SANTA control: target string of the
first replace. -/
def dstMecha : List Char :=
  ("await page.getByRole(\x27button\x27, \x7b name: /MECHA-SANTA/ \x7d).evaluate(el => el.click());").data

/-- Forced pointer click on the CYBER-ELF unit-select control. -/
def srcElf : List Char :=
  ("await page.getByRole(\x27button\x27, \x7b name: /CYBER-ELF/ \x7d).click(\x7b force: true, noWaitAfter: true \x7d);").data

/-- Script-invoked click on the CYBER-ELF control. -/
def dstElf : List Char :=
  ("await page.getByRole(\x27button\x27, \x7b name: /CYBER-ELF/ \x7d).evaluate(el => el.click());").data

/-- Forced pointer click on the BUMBLE unit-select control. -/
def srcBumble : List Char :=
  ("await page.getByRole(\x27button\x27, \x7b name: /BUMBLE/ \x7d).click(\x7b force: true, noWaitAfter: true \x7d);").data

/-- Script-invoked click on the BUMBLE control. -/
def dstBumble : List Char :=
  ("await page.getByRole(\x27button\x27, \x7b name: /BUMBLE/ \x7d).evaluate(el => el.click());").data

/-- Forced pointer click (variant with `noWaitAfter`) on the COMMENCE
OPERATION operation-start control. -/
def srcCommenceA : List Char :=
  ("await page.getByRole(\x27button\x27, \x7b name: /COMMENCE OPERATION/i \x7d).click(\x7b force: true, noWaitAfter: true \x7d);").data

/-- Forced pointer click (variant without `noWaitAfter`) on the COMMENCE
OPERATION control. -/
def srcCommenceB : List Char :=
  ("await page.getByRole(\x27button\x27, \x7b name: /COMMENCE OPERATION/i \x7d).click(\x7b force: true \x7d);").data

/-- Script-invoked click on the COMMENCE OPERATION control: target of
both COMMENCE OPERATION replaces. -/
def dstCommence : List Char :=
  ("await page.getByRole(\x27button\x27, \x7b name: /COMMENCE OPERATION/i \x7d).evaluate(el => el.click());").data

/-- The five source strings, in the order `fix_tests.py` replaces them. -/
def fixSources : List (List Char) :=
  [srcMecha, srcElf, srcBumble, srcCommenceA, srcCommenceB]

/-- The five corresponding target strings. -/
def fixTargets : List (List Char) :=
  [dstMecha, dstElf, dstBumble, dstCommence, dstCommence]

/-- The whole transformation of `fix_tests.py` on a file content: the
five `str.replace` calls in program order. -/
def fixContent (content : List Char) : List Char :=
  replaceAll srcCommenceB dstCommence
    (replaceAll srcCommenceA dstCommence
      (replaceAll srcBumble dstBumble
        (replaceAll srcElf dstElf
          (replaceAll srcMecha dstMecha content))))

/-- The path `fix_tests.py` reads and writes (`file_path` in the script). -/
def tsFilePath : List Char := ("e2e/full-gameplay.spec.ts").data

/-- One run of `fix_tests.py` on the current content of the scenario
file: the new content, together with the list of file paths the run
writes to disk (the script opens exactly `file_path` for writing, once,
unconditionally). -/
def runFixTests (tsContent : List Char) : List Char × List (List Char) :=
  (fixContent tsContent, [tsFilePath])

/-- Side conditions on a pattern `q` and a replacement string `rep` under
which `replaceAll _ rep` can never leave or create an occurrence of `q`:
`q` does not occur inside `rep`, no non-empty suffix of `rep` starts an
occurrence of `q`, and no proper non-empty suffix of `q` aligns with the
start of `rep` in either direction.  All parts are decidable and are
checked by `decide` on the concrete strings of `fix_tests.py`. -/
def SafePair (q rep : List Char) : Prop :=
  q ≠ [] ∧
  (¬ q <:+: rep) ∧
  (∀ u ∈ rep.tails, u ≠ [] → ¬ u <+: q) ∧
  (∀ v ∈ q.tails, v ≠ [] → v ≠ q → ¬ v <+: rep ∧ ¬ rep <+: v)

instance (q rep : List Char) : Decidable (SafePair q rep) := by
  unfold SafePair
  infer_instance

/-- Join a list of lines with newline separators; `joinLines` of the
lines of a file is the file content the patch script reads. -/
def joinLines : List (List Char) → List Char
  | [] => []
  | [l] => l
  | l :: ls => l ++ (Char.ofNat 10) :: joinLines ls

/-- A pattern is border-free when no proper non-empty suffix of it is
also one of its prefixes, so an occurrence cannot begin inside text that
ends just before another occurrence.  Decidable; holds for all five
source strings by `decide`. -/
def borderFree (pat : List Char) : Prop :=
  pat ≠ [] ∧ ∀ v ∈ pat.tails, v ≠ [] → v ≠ pat → ¬ v <+: pat

instance (pat : List Char) : Decidable (borderFree pat) := by
  unfold borderFree
  infer_instance

/-- `interleave [(x1, p1), ..., (xk, pk)] tl` is the content
`x1 ++ p1 ++ x2 ++ p2 ++ ... ++ xk ++ pk ++ tl`: an explicit
decomposition of a file into the portions `xi` between occurrences, the
occurrences `pi` themselves, and the remainder `tl`. -/
def interleave : List (List Char × List Char) → List Char → List Char
  | [], tl => tl
  | piece :: rest, tl => piece.1 ++ (piece.2 ++ interleave rest tl)

/-- A portion of content in which none of the five forced-click source
strings occurs. -/
def occFree (x : List Char) : Prop := ∀ p ∈ fixSources, ¬ p <:+: x

instance (x : List Char) : Decidable (occFree x) := by
  unfold occFree
  infer_instance

/-- The rewrite the patch applies to a single click call: each of the
five source strings goes to its script-invoked target, anything else is
unchanged. -/
def replacedPiece (p : List Char) : List Char :=
  if p = srcMecha then dstMecha
  else if p = srcElf then dstElf
  else if p = srcBumble then dstBumble
  else if p = srcCommenceA then dstCommence
  else if p = srcCommenceB then dstCommence
  else p

/-! ### Definitions: the focus probe `src/verification/verify_focus.py` -/

/-- A rendered element of the target page, in document order: its role
(button or not) and the accessible text of its subtree.  This is the flat
view of the DOM the probe's locators query. -/
structure Element where
  isButton : Bool
  text : List Char
deriving DecidableEq

/-- The URL `verify_focus` navigates to. -/
def targetUrl : List Char := ("http://localhost:3000").data

/-- The start-screen marker text `verify_focus` waits for. -/
def startMarker : List Char := ("Protocol: Silent Night").data

/-- The selector string passed to `wait_for_selector`. -/
def startSelector : List Char := ("text=Protocol: Silent Night").data

/-- The text the unit-card locator filters on. -/
def mechaText : List Char := ("MECHA-SANTA").data

/-- The configured screenshot path of the probe. -/
def screenshotPath : List Char := ("verification/focus_state.png").data

/-- Whether the page shows the start-screen marker: the embedding of
`page.wait_for_selector("text=Protocol: Silent Night")` succeeding. -/
def hasMarker (page : List Element) : Bool :=
  page.any (fun el => decide (startMarker <:+: el.text))

/-- The candidate handles of
`page.locator("button").filter(has=page.get_by_text("MECHA-SANTA"))`:
buttons whose accessible text contains the target text, in document
order.  `verify_focus` takes `.first` of this list. -/
def matchingButtons (page : List Element) : List Element :=
  page.filter (fun el => el.isButton && decide (mechaText <:+: el.text))

/-- Observable effects a probe run can perform, in the vocabulary of the
scenario machine (the probe itself never emits `asserted`). -/
inductive Effect where
  | navigated (url : List Char)
  | waitedFor (sel : List Char)
  | focused (el : Element)
  | screenshotTaken (path : List Char)
  | asserted (desc : List Char)
deriving DecidableEq

/-- Environment of one probe run: the rendered page, plus an optional
injected exception for each primitive step of the scenario body
(navigation, the wait infrastructure, locator resolution, focusing, and
the screenshot call).  A `some` models that step raising. -/
structure Env where
  page : List Element
  gotoFault : Option (List Char)
  waitFault : Option (List Char)
  locateFault : Option (List Char)
  focusFault : Option (List Char)
  screenshotFault : Option (List Char)
deriving DecidableEq

/-- Result of the scenario body `verify_focus(page)`: the effects
performed in order, and the exception that escaped it, if any. -/
structure ProbeOutcome where
  effects : List Effect
  err : Option (List Char)
deriving DecidableEq

/-- The timeout error `wait_for_selector` raises when the marker never
appears. -/
def waitTimeoutMsg : List Char :=
  ("Page.wait_for_selector: Timeout 30000ms exceeded.").data

/-- The timeout error `Locator.focus` raises when no candidate matches. -/
def focusTimeoutMsg : List Char :=
  ("Locator.focus: Timeout 30000ms exceeded.").data

/-- Embedding of `verify_focus(page)` (src/verification/verify_focus.py,
lines 3-27): goto, wait for the start marker, resolve the first matching
button, focus it, screenshot.  Each step runs only after the previous one
resolved; the first exception ends the run with the effects performed so
far. -/
def runProbe (env : Env) : ProbeOutcome :=
  match env.gotoFault with
  | some m => ⟨[], some m⟩
  | none =>
    match env.waitFault with
    | some m => ⟨[Effect.navigated targetUrl], some m⟩
    | none =>
      if hasMarker env.page then
        match env.locateFault with
        | some m => ⟨[Effect.navigated targetUrl, Effect.waitedFor startSelector], some m⟩
        | none =>
          match env.focusFault with
          | some m => ⟨[Effect.navigated targetUrl, Effect.waitedFor startSelector], some m⟩
          | none =>
            match (matchingButtons env.page).head? with
            | none =>
              ⟨[Effect.navigated targetUrl, Effect.waitedFor startSelector],
               some focusTimeoutMsg⟩
            | some b =>
              match env.screenshotFault with
              | some m =>
                ⟨[Effect.navigated targetUrl, Effect.waitedFor startSelector,
                  Effect.focused b], some m⟩
              | none =>
                ⟨[Effect.navigated targetUrl, Effect.waitedFor startSelector,
                  Effect.focused b, Effect.screenshotTaken screenshotPath], none⟩
      else ⟨[Effect.navigated targetUrl], some waitTimeoutMsg⟩

/-- The two acquisition steps of the `__main__` block that run before the
`try` frame: `browser = p.chromium.launch()` and
`page = browser.new_page()`. -/
structure Setup where
  launchFault : Option (List Char)
  newPageFault : Option (List Char)
deriving DecidableEq

/-- Observable outcome of the `__main__` block: the lines printed, whether
`browser.close()` ran, and whether an exception escaped the process. -/
structure MainOutcome where
  printedLines : List (List Char)
  browserClosed : Bool
  crashed : Bool
deriving DecidableEq

/-- The diagnostic line `print(f"Error: ...")` builds from an exception
message. -/
def errLine (m : List Char) : List Char := ("Error: ").data ++ m

/-- Embedding of the `__main__` block (src/verification/verify_focus.py,
lines 29-38).  If launch or page creation raises, the exception escapes
(those calls sit before the `try`); otherwise the body runs under
`try/except Exception/finally`: an escaping body exception is printed as
one `Error:` line, and `browser.close()` runs in every case. -/
def runMain (setup : Setup) (env : Env) : MainOutcome :=
  match setup.launchFault with
  | some _ => ⟨[], false, true⟩
  | none =>
    match setup.newPageFault with
    | some _ => ⟨[], false, true⟩
    | none =>
      match (runProbe env).err with
      | some m => ⟨[errLine m], true, false⟩
      | none => ⟨[], true, false⟩

/-- The file paths a probe run writes: exactly the screenshots it takes. -/
def probeWrites (env : Env) : List (List Char) :=
  (runProbe env).effects.filterMap (fun e =>
    match e with
    | Effect.screenshotTaken p => some p
    | _ => none)

/-- The kind of a scenario step, forgetting its parameters. -/
inductive StepKind where
  | navStep | waitStep | focusStep | shotStep | assertStep
deriving DecidableEq

/-- The step kind of an effect. -/
def effectKind : Effect → StepKind
  | .navigated _ => .navStep
  | .waitedFor _ => .waitStep
  | .focused _ => .focusStep
  | .screenshotTaken _ => .shotStep
  | .asserted _ => .assertStep

/-- The probe's scenario in step kinds: navigate, wait, focus, screenshot
(and no assertion step). -/
def canonicalOrder : List StepKind :=
  [StepKind.navStep, StepKind.waitStep, StepKind.focusStep, StepKind.shotStep]

/-- The four failure-category names of the error taxonomy. -/
def categoryNames : List (List Char) :=
  [("NotFound").data, ("ReadinessTimeout").data,
   ("DispatchFailed").data, ("AssertionTimeout").data]

/-! Concrete pages, environments and setups used as witnesses. -/

/-- A non-button element carrying the start-screen marker text. -/
def markerElem : Element := ⟨false, startMarker⟩

/-- A unit-select card button whose accessible text contains MECHA-SANTA. -/
def santaCard : Element := ⟨true, ("MECHA-SANTA // HEAVY ASSAULT UNIT").data⟩

/-- A second, distinct control that also contains the target text. -/
def santaCard2 : Element := ⟨true, ("MECHA-SANTA MK II").data⟩

/-- A start screen with a unique matching card. -/
def page1 : List Element := [markerElem, santaCard]

/-- A start screen with two distinct matching cards. -/
def page2 : List Element := [markerElem, santaCard, santaCard2]

/-- An environment with no injected faults over the given page. -/
def nominalEnv (page : List Element) : Env := ⟨page, none, none, none, none, none⟩

/-- The nominal setup: launch and page creation succeed. -/
def setup0 : Setup := ⟨none, none⟩

/-- The navigation error raised when the game server is not running. -/
def refusedMsg : List Char :=
  ("net::ERR_CONNECTION_REFUSED at http://localhost:3000").data

/-- A run whose navigation step raises. -/
def envRefused : Env := ⟨[], some refusedMsg, none, none, none, none⟩

end SilentNight

namespace SilentNight

/-! ### Lemmas about `replaceAll` -/

theorem replaceAll_nil (pat rep : List Char) : replaceAll pat rep [] = [] := by
  simp [replaceAll]

theorem replaceAll_cons_pos {pat : List Char} (rep : List Char) {c : Char} {s : List Char}
    (h1 : pat ≠ []) (h2 : pat <+: (c :: s)) :
    replaceAll pat rep (c :: s) = rep ++ replaceAll pat rep (List.drop (pat.length - 1) s) := by
  rw [replaceAll, if_pos ⟨h1, h2⟩]

theorem replaceAll_cons_neg {pat : List Char} (rep : List Char) {c : Char} {s : List Char}
    (h : ¬ (pat ≠ [] ∧ pat <+: (c :: s))) :
    replaceAll pat rep (c :: s) = c :: replaceAll pat rep s := by
  rw [replaceAll, if_neg h]

theorem pref_trans {x y z : List Char} (h1 : x <+: y) (h2 : y <+: z) : x <+: z := by
  obtain ⟨t1, rfl⟩ := h1
  obtain ⟨t2, rfl⟩ := h2
  exact ⟨t1 ++ t2, (List.append_assoc x t1 t2).symm⟩

theorem pref_len_le {x y : List Char} (h : x <+: y) : x.length ≤ y.length := by
  obtain ⟨t, rfl⟩ := h
  simp

theorem suf_trans {x y z : List Char} (h1 : x <:+ y) (h2 : y <:+ z) : x <:+ z := by
  obtain ⟨t1, rfl⟩ := h1
  obtain ⟨t2, rfl⟩ := h2
  exact ⟨t2 ++ t1, List.append_assoc t2 t1 x⟩

theorem suf_len_le {x y : List Char} (h : x <:+ y) : x.length ≤ y.length := by
  obtain ⟨t, rfl⟩ := h
  simp

theorem infix_of_pref {x y : List Char} (h : x <+: y) : x <:+: y := by
  obtain ⟨t, rfl⟩ := h
  exact ⟨[], t, rfl⟩

theorem infix_of_infix_suf {q r z : List Char} (h1 : q <:+: r) (h2 : r <:+ z) : q <:+: z := by
  obtain ⟨x, y, rfl⟩ := h1
  obtain ⟨t, rfl⟩ := h2
  exact ⟨t ++ x, y, by rw [List.append_assoc, List.append_assoc, List.append_assoc]⟩

/-- A replacement is the identity on contents without any occurrence of
the pattern. -/
theorem replaceAll_eq_self {pat : List Char} (rep : List Char) :
    ∀ {s : List Char}, ¬ pat <:+: s → replaceAll pat rep s = s := by
  intro s
  induction s with
  | nil => intro _; exact replaceAll_nil pat rep
  | cons c s ih =>
    intro h
    have hnp : ¬ (pat ≠ [] ∧ pat <+: (c :: s)) := by
      rintro ⟨_, h2⟩
      exact h (infix_of_pref h2)
    rw [replaceAll_cons_neg rep hnp, ih (fun hx => h (List.infix_cons hx))]

theorem cons_eq_pat_append {pat : List Char} {c : Char} {s : List Char}
    (h1 : pat ≠ []) (h2 : pat <+: (c :: s)) :
    c :: s = pat ++ List.drop (pat.length - 1) s := by
  obtain ⟨t, ht⟩ := h2
  have hd : List.drop pat.length (c :: s) = t := by
    rw [← ht]; exact List.drop_left pat t
  have hlen : pat.length = (pat.length - 1) + 1 := by
    cases pat with
    | nil => exact absurd rfl h1
    | cons p ps => simp
  rw [hlen, List.drop_succ_cons] at hd
  rw [hd]
  exact ht.symm

theorem replaceAll_head {pat : List Char} (rep : List Char) (y : List Char) (h1 : pat ≠ []) :
    replaceAll pat rep (pat ++ y) = rep ++ replaceAll pat rep y := by
  cases pat with
  | nil => exact absurd rfl h1
  | cons p ps =>
    have heq : (p :: ps) ++ y = p :: (ps ++ y) := rfl
    have h2 : (p :: ps) <+: (p :: (ps ++ y)) := by
      rw [← heq]; exact List.prefix_append _ _
    rw [heq, replaceAll_cons_pos rep h1 h2]
    have hl : (p :: ps).length - 1 = ps.length := by simp
    rw [hl, List.drop_left]

theorem replaceAll_self {pat : List Char} (rep : List Char) (h1 : pat ≠ []) :
    replaceAll pat rep pat = rep := by
  have h := replaceAll_head rep [] h1
  rw [List.append_nil] at h
  rw [h, replaceAll_nil, List.append_nil]

/-- Where an infix of an append can sit: wholly in the left part, wholly in
the right part, or spanning the seam. -/
theorem infix_append_cases {q a b : List Char} (h : q <:+: a ++ b) :
    q <:+: a ∨ q <:+: b ∨
      ∃ u v, u ++ v = q ∧ u ≠ [] ∧ v ≠ [] ∧ u <:+ a ∧ v <+: b := by
  obtain ⟨x, y, hxy⟩ := h
  have hx : x <+: a ++ b := ⟨q ++ y, by rw [← List.append_assoc]; exact hxy⟩
  by_cases hxa : a.length ≤ x.length
  · -- a is a prefix of x: the occurrence is wholly inside b
    right; left
    have hax : a <+: x := List.prefix_of_prefix_length_le (List.prefix_append a b) hx hxa
    obtain ⟨x', rfl⟩ := hax
    have : a ++ (x' ++ q ++ y) = a ++ b := by
      rw [← hxy]; simp [List.append_assoc]
    exact ⟨x', y, (List.append_right_inj a).mp this⟩
  · push_neg at hxa
    have hxa' : x <+: a := List.prefix_of_prefix_length_le hx (List.prefix_append a b) (Nat.le_of_lt hxa)
    obtain ⟨a', ha'⟩ := hxa'
    have ha'ne : a' ≠ [] := by
      intro hnil
      rw [hnil, List.append_nil] at ha'
      rw [ha'] at hxa
      exact Nat.lt_irrefl _ hxa
    have hqy : q ++ y = a' ++ b := by
      have : x ++ (q ++ y) = x ++ (a' ++ b) := by
        rw [← List.append_assoc, hxy, ← ha', List.append_assoc]
      exact (List.append_right_inj x).mp this
    by_cases hqa : q.length ≤ a'.length
    · -- occurrence wholly inside a
      left
      have hq : q <+: a' := by
        apply List.prefix_of_prefix_length_le _ (List.prefix_append a' b) hqa
        rw [← hqy]; exact List.prefix_append q y
      obtain ⟨a'', rfl⟩ := hq
      exact ⟨x, a'', by rw [← ha', List.append_assoc]⟩
    · -- the occurrence spans the seam
      push_neg at hqa
      have hqpre : q <+: a' ++ b := by
        rw [← hqy]; exact List.prefix_append q y
      have ha'q : a' <+: q :=
        List.prefix_of_prefix_length_le (List.prefix_append a' b) hqpre (Nat.le_of_lt hqa)
      obtain ⟨v, rfl⟩ := ha'q
      have hvne : v ≠ [] := by
        intro hnil
        rw [hnil, List.append_nil] at hqa
        exact Nat.lt_irrefl _ hqa
      have hvb : v <+: b := by
        have : a' ++ (v ++ y) = a' ++ b := by
          rw [← List.append_assoc]; exact hqy
        exact ⟨y, (List.append_right_inj a').mp this⟩
      exact Or.inr (Or.inr ⟨a', v, rfl, ha'ne, hvne, ⟨x, ha'⟩, hvb⟩)

/-- If a proper, non-empty suffix of `q` is a prefix of `replaceAll pat rep s`,
it was already a prefix of `s` (the replacement string can neither start nor
be started by such a suffix). -/
theorem pref_transfer {pat rep q : List Char}
    (H3 : ∀ v ∈ q.tails, v ≠ [] → v ≠ q → ¬ v <+: rep ∧ ¬ rep <+: v) :
    ∀ s : List Char, ∀ v, v ∈ q.tails → v ≠ [] → v ≠ q →
      v <+: replaceAll pat rep s → v <+: s := by
  intro s
  induction s with
  | nil =>
    intro v _ hv _ hpre
    rw [replaceAll_nil] at hpre
    exact absurd (List.prefix_nil.mp hpre) hv
  | cons c s ih =>
    intro v hvt hv hvq hpre
    by_cases hbr : pat ≠ [] ∧ pat <+: (c :: s)
    · rw [replaceAll_cons_pos rep hbr.1 hbr.2] at hpre
      rcases Nat.le_total v.length rep.length with hle | hle
      · have : v <+: rep := List.prefix_of_prefix_length_le hpre (List.prefix_append rep _) hle
        exact absurd this (H3 v hvt hv hvq).1
      · have : rep <+: v := List.prefix_of_prefix_length_le (List.prefix_append rep _) hpre hle
        exact absurd this (H3 v hvt hv hvq).2
    · rw [replaceAll_cons_neg rep hbr] at hpre
      cases v with
      | nil => exact absurd rfl hv
      | cons v0 v' =>
        rw [List.cons_prefix_cons] at hpre
        obtain ⟨rfl, hv'⟩ := hpre
        by_cases hv'nil : v' = []
        · subst hv'nil
          exact ⟨s, rfl⟩
        · have hsufv : v' <:+ (v0 :: v') := ⟨[v0], rfl⟩
          have hvt' : v' ∈ q.tails := by
            rw [List.mem_tails] at hvt ⊢
            exact suf_trans hsufv hvt
          have hvq' : v' ≠ q := by
            intro hq
            have h1 : (v0 :: v').length ≤ q.length := suf_len_le ((List.mem_tails _ _).mp hvt)
            rw [← hq] at h1
            simp at h1
          have := ih v' hvt' hv'nil hvq' hv'
          exact List.cons_prefix_cons.mpr ⟨rfl, this⟩

theorem replaceAll_no_occ_aux {pat rep q : List Char} (hsafe : SafePair q rep) :
    ∀ n : Nat, ∀ s : List Char, s.length ≤ n →
      (¬ q <:+: s ∨ q = pat) → ¬ q <:+: replaceAll pat rep s := by
  obtain ⟨hq, H1, H2, H3⟩ := hsafe
  intro n
  induction n with
  | zero =>
    intro s hlen hs hocc
    cases s with
    | nil =>
      rw [replaceAll_nil] at hocc
      exact hq (List.infix_nil.mp hocc)
    | cons c s' => simp at hlen
  | succ n ih =>
    intro s hlen hs hocc
    cases s with
    | nil =>
      rw [replaceAll_nil] at hocc
      exact hq (List.infix_nil.mp hocc)
    | cons c s' =>
      by_cases hbr : pat ≠ [] ∧ pat <+: (c :: s')
      · -- a replacement fires at the head
        have heq : c :: s' = pat ++ List.drop (pat.length - 1) s' :=
          cons_eq_pat_append hbr.1 hbr.2
        set rest := List.drop (pat.length - 1) s' with hrest
        have hlen' : rest.length ≤ n := by
          simp only [List.length_cons] at hlen
          simp only [hrest, List.length_drop]
          omega
        have hs' : ¬ q <:+: rest ∨ q = pat := by
          rcases hs with hno | hqp
          · left
            intro hin
            exact hno (infix_of_infix_suf hin ⟨pat, heq.symm⟩)
          · right; exact hqp
        have hno' : ¬ q <:+: replaceAll pat rep rest :=
          ih rest hlen' hs'
        rw [replaceAll_cons_pos rep hbr.1 hbr.2, ← hrest] at hocc
        rcases infix_append_cases hocc with hL | hR | ⟨u, v, huv, hu, hvne, hus, _⟩
        · exact H1 hL
        · exact hno' hR
        · exact H2 u ((List.mem_tails _ _).mpr hus) hu ⟨v, huv⟩
      · -- the head character is kept
        have hlen' : s'.length ≤ n := by
          simp only [List.length_cons] at hlen
          omega
        have hs'' : ¬ q <:+: s' ∨ q = pat := by
          rcases hs with hno | hqp
          · exact Or.inl (fun hx => hno (List.infix_cons hx))
          · exact Or.inr hqp
        have hno' : ¬ q <:+: replaceAll pat rep s' :=
          ih s' hlen' hs''
        rw [replaceAll_cons_neg rep hbr] at hocc
        rcases List.infix_cons_iff.mp hocc with hpre | hin
        · -- q is a prefix of c :: replaceAll pat rep s'
          cases q with
          | nil => exact hq rfl
          | cons q0 q'' =>
            rw [List.cons_prefix_cons] at hpre
            obtain ⟨rfl, hq''⟩ := hpre
            by_cases hq''nil : q'' = []
            · subst hq''nil
              have hqpre : [q0] <+: q0 :: s' := ⟨s', rfl⟩
              rcases hs with hno | hqp
              · exact hno (infix_of_pref hqpre)
              · exact hbr (by rw [← hqp]; exact ⟨by simp, hqpre⟩)
            · have hq''t : q'' ∈ (q0 :: q'').tails := by
                rw [List.mem_tails]
                exact ⟨[q0], rfl⟩
              have hq''q : q'' ≠ q0 :: q'' := by
                intro h
                have := congrArg List.length h
                simp at this
              have hq''s : q'' <+: s' :=
                pref_transfer H3 s' q'' hq''t hq''nil hq''q hq''
              have hqpre : q0 :: q'' <+: q0 :: s' := List.cons_prefix_cons.mpr ⟨rfl, hq''s⟩
              rcases hs with hno | hqp
              · exact hno (infix_of_pref hqpre)
              · exact hbr (by rw [← hqp]; exact ⟨hq, hqpre⟩)
        · exact hno' hin

/-- Core theorem: under the `SafePair` side conditions, `replaceAll pat rep`
leaves no occurrence of `q` — either because `q` is the very pattern being
replaced, or because the input had no occurrence of `q` to begin with. -/
theorem replaceAll_no_occ {pat rep q : List Char} (hsafe : SafePair q rep)
    (s : List Char) (hs : ¬ q <:+: s ∨ q = pat) :
    ¬ q <:+: replaceAll pat rep s :=
  replaceAll_no_occ_aux hsafe s.length s (Nat.le_refl _) hs

/-- Greedy scanning skips over a leading region in which no occurrence of
the pattern starts: if no suffix position of `a` begins a match against
the rest of the input, `replaceAll` copies `a` verbatim and continues on
`z`. -/
theorem replaceAll_skip_pre (pat rep : List Char) :
    ∀ a z : List Char,
      (∀ a1 a2, a = a1 ++ a2 → a2 ≠ [] → ¬ pat <+: (a2 ++ z)) →
      replaceAll pat rep (a ++ z) = a ++ replaceAll pat rep z := by
  intro a
  induction a with
  | nil => intro z _; rw [List.nil_append, List.nil_append]
  | cons c a' ih =>
    intro z hno
    have hhead : ¬ pat <+: ((c :: a') ++ z) := hno [] (c :: a') rfl (by simp)
    have hnp : ¬ (pat ≠ [] ∧ pat <+: (c :: (a' ++ z))) := by
      rintro ⟨_, h2⟩
      exact hhead h2
    have hno' : ∀ a1 a2, a' = a1 ++ a2 → a2 ≠ [] → ¬ pat <+: (a2 ++ z) := by
      intro a1 a2 hsplit h2ne
      exact hno (c :: a1) a2 (by rw [hsplit]; rfl) h2ne
    have harr : (c :: a') ++ z = c :: (a' ++ z) := rfl
    rw [harr, replaceAll_cons_neg rep hnp, ih z hno']
    rfl

/-- For a border-free pattern, no occurrence can start strictly inside
occurrence-free text placed before a designated occurrence. -/
theorem decompose_cond {pat x : List Char} (y : List Char)
    (hbf : borderFree pat) (hx : ¬ pat <:+: x) :
    ∀ x1 x2, x = x1 ++ x2 → x2 ≠ [] → ¬ pat <+: (x2 ++ (pat ++ y)) := by
  obtain ⟨hpne, hbord⟩ := hbf
  intro x1 x2 hsplit hne hpre
  have hx2suf : x2 <:+ x := ⟨x1, hsplit.symm⟩
  rcases Nat.le_total pat.length x2.length with hle | hle
  · have hpx2 : pat <+: x2 :=
      List.prefix_of_prefix_length_le hpre (List.prefix_append x2 _) hle
    exact hx (infix_of_infix_suf (infix_of_pref hpx2) hx2suf)
  · have hx2p : x2 <+: pat :=
      List.prefix_of_prefix_length_le (List.prefix_append x2 _) hpre hle
    obtain ⟨r, hr⟩ := hx2p
    by_cases hrnil : r = []
    · rw [hrnil, List.append_nil] at hr
      rw [← hr] at hx
      exact hx (infix_of_infix_suf (infix_of_pref (List.prefix_refl x2)) hx2suf)
    · have hrpy : r <+: pat ++ y := by
        have h2' : x2 ++ r <+: x2 ++ (pat ++ y) := by rw [hr]; exact hpre
        exact (List.prefix_append_right_inj x2).mp h2'
      have hrlen : r.length < pat.length := by
        have := congrArg List.length hr
        simp only [List.length_append] at this
        cases x2 with
        | nil => exact absurd rfl hne
        | cons e x2' => simp only [List.length_cons] at this; omega
      have hrp : r <+: pat :=
        List.prefix_of_prefix_length_le hrpy (List.prefix_append pat y) (Nat.le_of_lt hrlen)
      have hrt : r ∈ pat.tails := (List.mem_tails r pat).mpr ⟨x2, hr⟩
      have hrq : r ≠ pat := by
        intro h
        rw [h] at hrlen
        exact Nat.lt_irrefl _ hrlen
      exact hbord r hrt hrnil hrq hrp

/-- Splitting a replacement around a designated occurrence: if the
pattern is border-free and does not occur in `x`, the text `x` before the
occurrence is copied character for character, the occurrence becomes the
replacement string, and scanning continues on `y` alone. -/
theorem replaceAll_decompose {pat : List Char} (rep : List Char) {x : List Char}
    (y : List Char) (hbf : borderFree pat) (hx : ¬ pat <:+: x) :
    replaceAll pat rep (x ++ pat ++ y) = x ++ rep ++ replaceAll pat rep y := by
  have h1 : replaceAll pat rep (x ++ (pat ++ y)) = x ++ replaceAll pat rep (pat ++ y) :=
    replaceAll_skip_pre pat rep x (pat ++ y) (decompose_cond y hbf hx)
  rw [List.append_assoc, h1, replaceAll_head rep y hbf.1, ← List.append_assoc]

/-- No occurrence of `pat` starts inside `x ++ p` when `pat` does not
occur in `x` and `(pat, p)` satisfies the `SafePair` seam conditions —
whatever text follows. -/
theorem skip_piece_cond {pat p x : List Char} (z : List Char)
    (hsafe : SafePair pat p) (hx : ¬ pat <:+: x) :
    ∀ a1 a2, x ++ p = a1 ++ a2 → a2 ≠ [] → ¬ pat <+: (a2 ++ z) := by
  obtain ⟨hpne, H1, H2, H3⟩ := hsafe
  intro a1 a2 hsplit hne hpre
  have ha2suf : a2 <:+ x ++ p := ⟨a1, hsplit.symm⟩
  rcases Nat.lt_or_ge p.length a2.length with hlt | hge
  · -- the start position lies inside x, strictly before p
    have ha1x : a1 <+: x := by
      have ha1 : a1 <+: x ++ p := ⟨a2, hsplit.symm⟩
      have hlen : a1.length ≤ x.length := by
        have := congrArg List.length hsplit
        simp only [List.length_append] at this
        omega
      exact List.prefix_of_prefix_length_le ha1 (List.prefix_append x p) hlen
    obtain ⟨x2, hx2⟩ := ha1x
    have ha2eq : a2 = x2 ++ p := by
      have : a1 ++ (x2 ++ p) = a1 ++ a2 := by
        rw [← List.append_assoc, hx2]
        exact hsplit
      exact ((List.append_right_inj a1).mp this).symm
    have hx2suf : x2 <:+ x := ⟨a1, hx2⟩
    have hx2ne : x2 ≠ [] := by
      intro hnil
      rw [hnil, List.nil_append] at ha2eq
      rw [ha2eq] at hlt
      exact Nat.lt_irrefl _ hlt
    rw [ha2eq, List.append_assoc] at hpre
    rcases Nat.le_total pat.length x2.length with hle2 | hle2
    · have hpx2 : pat <+: x2 :=
        List.prefix_of_prefix_length_le hpre (List.prefix_append x2 _) hle2
      exact hx (infix_of_infix_suf (infix_of_pref hpx2) hx2suf)
    · have hx2p : x2 <+: pat :=
        List.prefix_of_prefix_length_le (List.prefix_append x2 _) hpre hle2
      obtain ⟨r, hr⟩ := hx2p
      by_cases hrnil : r = []
      · rw [hrnil, List.append_nil] at hr
        rw [← hr] at hx
        exact hx (infix_of_infix_suf (infix_of_pref (List.prefix_refl x2)) hx2suf)
      · have hrpz : r <+: p ++ z := by
          have h2' : x2 ++ r <+: x2 ++ (p ++ z) := by rw [hr]; exact hpre
          exact (List.prefix_append_right_inj x2).mp h2'
        have hrt : r ∈ pat.tails := (List.mem_tails r pat).mpr ⟨x2, hr⟩
        have hrq : r ≠ pat := by
          intro h
          have := congrArg List.length hr
          rw [h] at this
          simp only [List.length_append] at this
          cases x2 with
          | nil => exact absurd rfl hx2ne
          | cons e x2' => simp only [List.length_cons] at this; omega
        rcases Nat.le_total r.length p.length with hle3 | hle3
        · have : r <+: p :=
            List.prefix_of_prefix_length_le hrpz (List.prefix_append p z) hle3
          exact (H3 r hrt hrnil hrq).1 this
        · have : p <+: r :=
            List.prefix_of_prefix_length_le (List.prefix_append p z) hrpz hle3
          exact (H3 r hrt hrnil hrq).2 this
  · -- the start position lies inside p, or exactly at the seam
    have ha2p : a2 <:+ p :=
      List.suffix_of_suffix_length_le ha2suf (List.suffix_append x p) hge
    rcases Nat.le_total pat.length a2.length with hle2 | hle2
    · have hppre : pat <+: a2 :=
        List.prefix_of_prefix_length_le hpre (List.prefix_append a2 z) hle2
      exact H1 (infix_of_infix_suf (infix_of_pref hppre) ha2p)
    · have ha2pat : a2 <+: pat :=
        List.prefix_of_prefix_length_le (List.prefix_append a2 z) hpre hle2
      exact H2 a2 ((List.mem_tails a2 p).mpr ha2p) hne ha2pat

/-- `replaceAll` copies occurrence-free text followed by a `SafePair`
neighbour string verbatim and continues after it. -/
theorem replaceAll_skip {pat p x : List Char} (rep z : List Char)
    (hsafe : SafePair pat p) (hx : ¬ pat <:+: x) :
    replaceAll pat rep (x ++ p ++ z) = x ++ p ++ replaceAll pat rep z :=
  replaceAll_skip_pre pat rep (x ++ p) z (skip_piece_cond z hsafe hx)

/-- One replacement pass over a decomposed content: every piece equal to
the pattern becomes the replacement string, every other piece — its
surrounding text included — is preserved character for character. -/
theorem replaceAll_interleave {pat : List Char} (rep : List Char) (hbf : borderFree pat) :
    ∀ pieces : List (List Char × List Char), ∀ tl : List Char,
      (∀ piece ∈ pieces, ¬ pat <:+: piece.1 ∧ (piece.2 = pat ∨ SafePair pat piece.2)) →
      ¬ pat <:+: tl →
      replaceAll pat rep (interleave pieces tl) =
        interleave
          (pieces.map (fun piece => (piece.1, if piece.2 = pat then rep else piece.2))) tl := by
  intro pieces
  induction pieces with
  | nil =>
    intro tl _ htl
    simp only [interleave, List.map_nil]
    exact replaceAll_eq_self rep htl
  | cons piece rest ih =>
    intro tl hps htl
    obtain ⟨x, p⟩ := piece
    have hx : ¬ pat <:+: x := (hps (x, p) (by simp)).1
    have hp := (hps (x, p) (by simp)).2
    have hrest : ∀ q ∈ rest, ¬ pat <:+: q.1 ∧ (q.2 = pat ∨ SafePair pat q.2) := by
      intro q hq
      exact hps q (by simp [hq])
    have hW := ih tl hrest htl
    rcases hp with hpeq | hsafe
    · have hpeq' : p = pat := hpeq
      rw [hpeq']
      have hil : interleave ((x, pat) :: rest) tl = x ++ (pat ++ interleave rest tl) := rfl
      rw [hil, ← List.append_assoc, replaceAll_decompose rep _ hbf hx, hW]
      simp [interleave]
    · have hsafe' : SafePair pat p := hsafe
      have hne : p ≠ pat := by
        intro h
        rw [h] at hsafe'
        exact hsafe'.2.1 List.infix_rfl
      have hil : interleave ((x, p) :: rest) tl = x ++ (p ++ interleave rest tl) := rfl
      rw [hil, ← List.append_assoc, replaceAll_skip rep _ hsafe' hx, hW]
      simp [interleave, hne]

end SilentNight

namespace SilentNight

/-! ### The patch's pattern/replacement pairs are safe -/

theorem safe_mm : SafePair srcMecha dstMecha := by decide

theorem safe_me : SafePair srcMecha dstElf := by decide

theorem safe_mb : SafePair srcMecha dstBumble := by decide

theorem safe_mc : SafePair srcMecha dstCommence := by decide

theorem safe_ee : SafePair srcElf dstElf := by decide

theorem safe_eb : SafePair srcElf dstBumble := by decide

theorem safe_ec : SafePair srcElf dstCommence := by decide

theorem safe_bb : SafePair srcBumble dstBumble := by decide

theorem safe_bc : SafePair srcBumble dstCommence := by decide

theorem safe_ac : SafePair srcCommenceA dstCommence := by decide

theorem safe_cc : SafePair srcCommenceB dstCommence := by decide

/-! Each source string is border-free, no source string overlaps another
source string, and no later-stage source string overlaps an
already-placed target string — all by `decide`. -/

theorem bf_mecha : borderFree srcMecha := by decide

theorem bf_elf : borderFree srcElf := by decide

theorem bf_bumble : borderFree srcBumble := by decide

theorem bf_commA : borderFree srcCommenceA := by decide

theorem bf_commB : borderFree srcCommenceB := by decide

theorem sps_me : SafePair srcMecha srcElf := by decide

theorem sps_mb : SafePair srcMecha srcBumble := by decide

theorem sps_ma : SafePair srcMecha srcCommenceA := by decide

theorem sps_mc : SafePair srcMecha srcCommenceB := by decide

theorem sps_eb : SafePair srcElf srcBumble := by decide

theorem sps_ea : SafePair srcElf srcCommenceA := by decide

theorem sps_ec : SafePair srcElf srcCommenceB := by decide

theorem sps_ba : SafePair srcBumble srcCommenceA := by decide

theorem sps_bc : SafePair srcBumble srcCommenceB := by decide

theorem sps_ac : SafePair srcCommenceA srcCommenceB := by decide

theorem spd_em : SafePair srcElf dstMecha := by decide

theorem spd_bm : SafePair srcBumble dstMecha := by decide

theorem spd_be : SafePair srcBumble dstElf := by decide

theorem spd_am : SafePair srcCommenceA dstMecha := by decide

theorem spd_ae : SafePair srcCommenceA dstElf := by decide

theorem spd_ab : SafePair srcCommenceA dstBumble := by decide

theorem spd_cm : SafePair srcCommenceB dstMecha := by decide

theorem spd_ce : SafePair srcCommenceB dstElf := by decide

theorem spd_cb : SafePair srcCommenceB dstBumble := by decide

/-- After the whole patch, none of the five forced-click source strings
occurs anywhere in the output, whatever the input content was. -/
theorem fix_no_src (content : List Char) :
    ∀ p ∈ fixSources, ¬ p <:+: fixContent content := by
  intro p hp
  have h1 : ¬ srcMecha <:+: replaceAll srcMecha dstMecha content :=
    replaceAll_no_occ safe_mm content (Or.inr rfl)
  simp only [fixSources, List.mem_cons, List.not_mem_nil, or_false] at hp
  rcases hp with rfl | rfl | rfl | rfl | rfl
  · exact replaceAll_no_occ safe_mc _ (Or.inl
      (replaceAll_no_occ safe_mc _ (Or.inl
        (replaceAll_no_occ safe_mb _ (Or.inl
          (replaceAll_no_occ safe_me _ (Or.inl h1)))))))
  · exact replaceAll_no_occ safe_ec _ (Or.inl
      (replaceAll_no_occ safe_ec _ (Or.inl
        (replaceAll_no_occ safe_eb _ (Or.inl
          (replaceAll_no_occ safe_ee _ (Or.inr rfl)))))))
  · exact replaceAll_no_occ safe_bc _ (Or.inl
      (replaceAll_no_occ safe_bc _ (Or.inl
        (replaceAll_no_occ safe_bb _ (Or.inr rfl)))))
  · exact replaceAll_no_occ safe_ac _ (Or.inl
      (replaceAll_no_occ safe_ac _ (Or.inr rfl)))
  · exact replaceAll_no_occ safe_cc _ (Or.inr rfl)

/-! The patch rewrites each forced-click call, standing alone, to its
script-invoked form. -/

theorem fixContent_srcMecha : fixContent srcMecha = dstMecha := by
  unfold fixContent
  rw [replaceAll_self dstMecha (show srcMecha ≠ [] by decide),
      replaceAll_eq_self dstElf (show ¬ srcElf <:+: dstMecha by decide),
      replaceAll_eq_self dstBumble (show ¬ srcBumble <:+: dstMecha by decide),
      replaceAll_eq_self dstCommence (show ¬ srcCommenceA <:+: dstMecha by decide),
      replaceAll_eq_self dstCommence (show ¬ srcCommenceB <:+: dstMecha by decide)]

theorem fixContent_srcElf : fixContent srcElf = dstElf := by
  unfold fixContent
  rw [replaceAll_eq_self dstMecha (show ¬ srcMecha <:+: srcElf by decide),
      replaceAll_self dstElf (show srcElf ≠ [] by decide),
      replaceAll_eq_self dstBumble (show ¬ srcBumble <:+: dstElf by decide),
      replaceAll_eq_self dstCommence (show ¬ srcCommenceA <:+: dstElf by decide),
      replaceAll_eq_self dstCommence (show ¬ srcCommenceB <:+: dstElf by decide)]

theorem fixContent_srcBumble : fixContent srcBumble = dstBumble := by
  unfold fixContent
  rw [replaceAll_eq_self dstMecha (show ¬ srcMecha <:+: srcBumble by decide),
      replaceAll_eq_self dstElf (show ¬ srcElf <:+: srcBumble by decide),
      replaceAll_self dstBumble (show srcBumble ≠ [] by decide),
      replaceAll_eq_self dstCommence (show ¬ srcCommenceA <:+: dstBumble by decide),
      replaceAll_eq_self dstCommence (show ¬ srcCommenceB <:+: dstBumble by decide)]

theorem fixContent_srcCommenceA : fixContent srcCommenceA = dstCommence := by
  unfold fixContent
  rw [replaceAll_eq_self dstMecha (show ¬ srcMecha <:+: srcCommenceA by decide),
      replaceAll_eq_self dstElf (show ¬ srcElf <:+: srcCommenceA by decide),
      replaceAll_eq_self dstBumble (show ¬ srcBumble <:+: srcCommenceA by decide),
      replaceAll_self dstCommence (show srcCommenceA ≠ [] by decide),
      replaceAll_eq_self dstCommence (show ¬ srcCommenceB <:+: dstCommence by decide)]

theorem fixContent_srcCommenceB : fixContent srcCommenceB = dstCommence := by
  unfold fixContent
  rw [replaceAll_eq_self dstMecha (show ¬ srcMecha <:+: srcCommenceB by decide),
      replaceAll_eq_self dstElf (show ¬ srcElf <:+: srcCommenceB by decide),
      replaceAll_eq_self dstBumble (show ¬ srcBumble <:+: srcCommenceB by decide),
      replaceAll_eq_self dstCommence (show ¬ srcCommenceA <:+: srcCommenceB by decide),
      replaceAll_self dstCommence (show srcCommenceB ≠ [] by decide)]

/-- Applying the patch twice gives the same content as applying it once:
the first pass leaves no occurrence of any source string, so every
replace of the second pass is the identity. -/
theorem fix_idem (content : List Char) :
    fixContent (fixContent content) = fixContent content := by
  have h1 := fix_no_src content srcMecha (by simp [fixSources])
  have h2 := fix_no_src content srcElf (by simp [fixSources])
  have h3 := fix_no_src content srcBumble (by simp [fixSources])
  have h4 := fix_no_src content srcCommenceA (by simp [fixSources])
  have h5 := fix_no_src content srcCommenceB (by simp [fixSources])
  conv_lhs => rw [fixContent]
  rw [replaceAll_eq_self dstMecha h1,
      replaceAll_eq_self dstElf h2,
      replaceAll_eq_self dstBumble h3,
      replaceAll_eq_self dstCommence h4,
      replaceAll_eq_self dstCommence h5]

/-- If no source string occurs in the content, the patch writes the file
back exactly as read. -/
theorem fix_frame (content : List Char)
    (h : ∀ p ∈ fixSources, ¬ p <:+: content) :
    fixContent content = content := by
  have h1 := h srcMecha (by simp [fixSources])
  have h2 := h srcElf (by simp [fixSources])
  have h3 := h srcBumble (by simp [fixSources])
  have h4 := h srcCommenceA (by simp [fixSources])
  have h5 := h srcCommenceB (by simp [fixSources])
  unfold fixContent
  rw [replaceAll_eq_self dstMecha h1,
      replaceAll_eq_self dstElf h2,
      replaceAll_eq_self dstBumble h3,
      replaceAll_eq_self dstCommence h4,
      replaceAll_eq_self dstCommence h5]

/-- A replacement whose pattern avoids a character `c` distributes over an
append at `c`: no occurrence of the pattern can straddle the separator. -/
theorem replaceAll_append_mid_aux {pat rep : List Char} {c : Char} (hc : c ∉ pat) :
    ∀ n : Nat, ∀ x y : List Char, x.length ≤ n →
      replaceAll pat rep (x ++ c :: y) =
        replaceAll pat rep x ++ c :: replaceAll pat rep y := by
  have hbase : ∀ y : List Char,
      replaceAll pat rep ([] ++ c :: y) =
        replaceAll pat rep [] ++ c :: replaceAll pat rep y := by
    intro y
    have hnp : ¬ (pat ≠ [] ∧ pat <+: (c :: y)) := by
      rintro ⟨h1, h2⟩
      cases pat with
      | nil => exact h1 rfl
      | cons p ps =>
        rw [List.cons_prefix_cons] at h2
        exact hc (h2.1 ▸ List.mem_cons_self p ps)
    rw [List.nil_append, replaceAll_cons_neg rep hnp, replaceAll_nil, List.nil_append]
  intro n
  induction n with
  | zero =>
    intro x y hlen
    have : x = [] := by
      cases x with
      | nil => rfl
      | cons d x' => simp at hlen
    subst this
    exact hbase y
  | succ n ih =>
    intro x y hlen
    cases x with
    | nil => exact hbase y
    | cons d x' =>
      simp only [List.length_cons] at hlen
      have heq : (d :: x') ++ c :: y = d :: (x' ++ c :: y) := rfl
      by_cases hbr : pat ≠ [] ∧ pat <+: (d :: x')
      · -- a replacement fires at the head of both sides
        have hple : pat.length ≤ (d :: x').length := pref_len_le hbr.2
        have hbig : pat ≠ [] ∧ pat <+: (d :: (x' ++ c :: y)) := by
          refine ⟨hbr.1, ?_⟩
          have : (d :: x') ++ (c :: y) = d :: (x' ++ c :: y) := rfl
          rw [← this]
          exact pref_trans hbr.2 (List.prefix_append _ _)
        rw [heq, replaceAll_cons_pos rep hbig.1 hbig.2,
            replaceAll_cons_pos rep hbr.1 hbr.2]
        have hdrop : List.drop (pat.length - 1) (x' ++ c :: y) =
            List.drop (pat.length - 1) x' ++ c :: y := by
          apply List.drop_append_of_le_length
          simp only [List.length_cons] at hple
          omega
        rw [hdrop]
        have hlen' : (List.drop (pat.length - 1) x').length ≤ n := by
          simp only [List.length_drop]
          omega
        rw [ih _ y hlen', List.append_assoc]
      · -- the head character is kept on both sides
        have hbig : ¬ (pat ≠ [] ∧ pat <+: (d :: (x' ++ c :: y))) := by
          rintro ⟨h1, h2⟩
          refine hbr ⟨h1, ?_⟩
          rcases Nat.le_total pat.length (d :: x').length with hle | hle
          · have : (d :: x') <+: (d :: (x' ++ c :: y)) := by
              have harr : (d :: x') ++ (c :: y) = d :: (x' ++ c :: y) := rfl
              rw [← harr]
              exact List.prefix_append _ _
            exact List.prefix_of_prefix_length_le h2 this hle
          · -- pat would then contain the separator c
            exfalso
            have hxp : (d :: x') <+: pat := by
              have harr : (d :: x') ++ (c :: y) = d :: (x' ++ c :: y) := rfl
              rw [← harr] at h2
              exact List.prefix_of_prefix_length_le (List.prefix_append _ _) h2 hle
            obtain ⟨p', hp'⟩ := hxp
            have hp'ne : p' ≠ [] := by
              intro hnil
              rw [hnil, List.append_nil] at hp'
              refine hbr ⟨h1, ?_⟩
              rw [← hp']
            have hp'pre : p' <+: c :: y := by
              have h2' : (d :: x') ++ p' <+: (d :: x') ++ (c :: y) := by
                have harr : (d :: x') ++ (c :: y) = d :: (x' ++ c :: y) := rfl
                rw [hp', harr]
                exact h2
              exact (List.prefix_append_right_inj (d :: x')).mp h2'
            have hcp : c ∈ pat := by
              rw [← hp']
              apply List.mem_append_right
              cases p' with
              | nil => exact absurd rfl hp'ne
              | cons e p'' =>
                rw [List.cons_prefix_cons] at hp'pre
                rw [hp'pre.1]
                exact List.mem_cons_self c p''
            exact hc hcp
        rw [heq, replaceAll_cons_neg rep hbig, replaceAll_cons_neg rep hbr,
            ih x' y (by omega)]
        rfl

theorem replaceAll_append_mid {pat rep : List Char} {c : Char} (hc : c ∉ pat)
    (x y : List Char) :
    replaceAll pat rep (x ++ c :: y) =
      replaceAll pat rep x ++ c :: replaceAll pat rep y :=
  replaceAll_append_mid_aux hc x.length x y (Nat.le_refl _)

theorem replaceAll_joinLines {pat rep : List Char} (hn : (Char.ofNat 10) ∉ pat) :
    ∀ L : List (List Char),
      replaceAll pat rep (joinLines L) = joinLines (L.map (replaceAll pat rep)) := by
  intro L
  induction L with
  | nil => simp [joinLines, replaceAll_nil]
  | cons l ls ih =>
    cases ls with
    | nil => simp [joinLines]
    | cons l2 ls2 =>
      have hjl : joinLines (l :: l2 :: ls2) = l ++ (Char.ofNat 10) :: joinLines (l2 :: ls2) := rfl
      rw [hjl, replaceAll_append_mid hn, ih, List.map_cons, List.map_cons]
      rfl

/-- The patch is line-by-line: no replaced call spans a newline, so the
rewritten file is the line-wise image of the original. -/
theorem fixContent_joinLines (L : List (List Char)) :
    fixContent (joinLines L) = joinLines (L.map fixContent) := by
  unfold fixContent
  rw [replaceAll_joinLines (show (Char.ofNat 10) ∉ srcMecha by decide),
      replaceAll_joinLines (show (Char.ofNat 10) ∉ srcElf by decide),
      replaceAll_joinLines (show (Char.ofNat 10) ∉ srcBumble by decide),
      replaceAll_joinLines (show (Char.ofNat 10) ∉ srcCommenceA by decide),
      replaceAll_joinLines (show (Char.ofNat 10) ∉ srcCommenceB by decide),
      List.map_map, List.map_map, List.map_map, List.map_map]
  rfl

theorem replacedPiece_mecha : replacedPiece srcMecha = dstMecha := by decide

theorem replacedPiece_elf : replacedPiece srcElf = dstElf := by decide

theorem replacedPiece_bumble : replacedPiece srcBumble = dstBumble := by decide

theorem replacedPiece_commA : replacedPiece srcCommenceA = dstCommence := by decide

theorem replacedPiece_commB : replacedPiece srcCommenceB = dstCommence := by decide

/-- The whole patch around a single click call: the occurrence-free text
`x` before the call is preserved character for character, the call is
rewritten, and the patch continues independently on the remainder `W`. -/
theorem fix_cons_piece (x p W : List Char) (hx : occFree x) (hp : p ∈ fixSources) :
    fixContent (x ++ p ++ W) = x ++ replacedPiece p ++ fixContent W := by
  have hx' : ∀ q ∈ fixSources, ¬ q <:+: x := hx
  have hx1 := hx' srcMecha (by simp [fixSources])
  have hx2 := hx' srcElf (by simp [fixSources])
  have hx3 := hx' srcBumble (by simp [fixSources])
  have hx4 := hx' srcCommenceA (by simp [fixSources])
  have hx5 := hx' srcCommenceB (by simp [fixSources])
  simp only [fixSources, List.mem_cons, List.not_mem_nil, or_false] at hp
  rcases hp with rfl | rfl | rfl | rfl | rfl
  · unfold fixContent
    rw [replaceAll_decompose dstMecha W bf_mecha hx1,
        replaceAll_skip dstElf _ spd_em hx2,
        replaceAll_skip dstBumble _ spd_bm hx3,
        replaceAll_skip dstCommence _ spd_am hx4,
        replaceAll_skip dstCommence _ spd_cm hx5,
        replacedPiece_mecha]
  · unfold fixContent
    rw [replaceAll_skip dstMecha _ sps_me hx1,
        replaceAll_decompose dstElf _ bf_elf hx2,
        replaceAll_skip dstBumble _ spd_be hx3,
        replaceAll_skip dstCommence _ spd_ae hx4,
        replaceAll_skip dstCommence _ spd_ce hx5,
        replacedPiece_elf]
  · unfold fixContent
    rw [replaceAll_skip dstMecha _ sps_mb hx1,
        replaceAll_skip dstElf _ sps_eb hx2,
        replaceAll_decompose dstBumble _ bf_bumble hx3,
        replaceAll_skip dstCommence _ spd_ab hx4,
        replaceAll_skip dstCommence _ spd_cb hx5,
        replacedPiece_bumble]
  · unfold fixContent
    rw [replaceAll_skip dstMecha _ sps_ma hx1,
        replaceAll_skip dstElf _ sps_ea hx2,
        replaceAll_skip dstBumble _ sps_ba hx3,
        replaceAll_decompose dstCommence _ bf_commA hx4,
        replaceAll_skip dstCommence _ safe_cc hx5,
        replacedPiece_commA]
  · unfold fixContent
    rw [replaceAll_skip dstMecha _ sps_mc hx1,
        replaceAll_skip dstElf _ sps_ec hx2,
        replaceAll_skip dstBumble _ sps_bc hx3,
        replaceAll_skip dstCommence _ sps_ac hx4,
        replaceAll_decompose dstCommence _ bf_commB hx5,
        replacedPiece_commB]

/-- The whole patch on a decomposed content
`x1 ++ p1 ++ ... ++ xk ++ pk ++ tl` whose pieces `pi` are click calls and
whose portions `xi`, `tl` are occurrence-free: every portion is preserved
character for character and every call is rewritten in place. -/
theorem fix_interleave (pieces : List (List Char × List Char)) :
    ∀ tl : List Char,
      (∀ piece ∈ pieces, occFree piece.1 ∧ piece.2 ∈ fixSources) → occFree tl →
      fixContent (interleave pieces tl) =
        interleave (pieces.map (fun piece => (piece.1, replacedPiece piece.2))) tl := by
  induction pieces with
  | nil =>
    intro tl _ htl
    simp only [interleave, List.map_nil]
    exact fix_frame tl htl
  | cons piece rest ih =>
    intro tl hps htl
    obtain ⟨x, p⟩ := piece
    have hx : occFree x := (hps (x, p) (by simp)).1
    have hp : p ∈ fixSources := (hps (x, p) (by simp)).2
    have hrest : ∀ q ∈ rest, occFree q.1 ∧ q.2 ∈ fixSources := by
      intro q hq
      exact hps q (by simp [hq])
    have hW := ih tl hrest htl
    have hil : interleave ((x, p) :: rest) tl = x ++ (p ++ interleave rest tl) := rfl
    rw [hil, ← List.append_assoc, fix_cons_piece x p _ hx hp, hW]
    simp [interleave]

end SilentNight

namespace SilentNight

/-! ### Claim theorems -/

/-- Claim C1: for every run of the focus probe in a fault-free environment
against a page that shows the start marker and exposes exactly one button
control whose accessible text contains "MECHA-SANTA", the probe finishes
without error and its effect trace is exactly navigate, wait, focus on
that control, screenshot to `verification/focus_state.png` — in
particular, no assertion step follows the focus. -/
theorem probe_success (env : Env) (b : Element)
    (hg : env.gotoFault = none) (hw : env.waitFault = none)
    (hl : env.locateFault = none) (hf : env.focusFault = none)
    (hs : env.screenshotFault = none)
    (hm : hasMarker env.page = true)
    (hu : matchingButtons env.page = [b]) :
    (runProbe env).err = none ∧
      (runProbe env).effects =
        [Effect.navigated targetUrl, Effect.waitedFor startSelector,
         Effect.focused b, Effect.screenshotTaken screenshotPath] := by
  unfold runProbe
  rw [hg, hw, hm, hl, hf, hu, hs]
  simp

/-- Witness for C1: the concrete start screen `page1` with its unique
matching card. -/
theorem probe_success_witness :
    (runProbe (nominalEnv page1)).err = none ∧
      (runProbe (nominalEnv page1)).effects =
        [Effect.navigated targetUrl, Effect.waitedFor startSelector,
         Effect.focused santaCard, Effect.screenshotTaken screenshotPath] :=
  probe_success (nominalEnv page1) santaCard rfl rfl rfl rfl rfl (by decide) (by decide)

/-- Claim C2: whenever browser launch and page creation succeed, every
exception raised anywhere inside the scenario body (modelled by an
arbitrary fault environment) is caught: the process never crashes, and an
escaping body exception is reported as the single printed line
`Error: ...`. -/
theorem probe_catches_exceptions (setup : Setup) (env : Env)
    (hl : setup.launchFault = none) (hp : setup.newPageFault = none) :
    (runMain setup env).crashed = false ∧
      ∀ m, (runProbe env).err = some m →
        (runMain setup env).printedLines = [errLine m] := by
  cases he : (runProbe env).err with
  | none =>
    constructor
    · unfold runMain
      rw [hl, hp, he]
    · intro m hm
      cases hm
  | some m0 =>
    constructor
    · unfold runMain
      rw [hl, hp, he]
    · intro m hm
      injection hm with hmm
      subst hmm
      unfold runMain
      rw [hl, hp, he]

/-- Witness for C2: a run whose navigation step raises a connection error
is caught and printed as one line. -/
theorem probe_catches_exceptions_witness :
    (runMain setup0 envRefused).crashed = false ∧
      (runMain setup0 envRefused).printedLines = [errLine refusedMsg] :=
  ⟨(probe_catches_exceptions setup0 envRefused rfl rfl).1,
   (probe_catches_exceptions setup0 envRefused rfl rfl).2 refusedMsg rfl⟩

/-- Claim C3: whenever the scenario body is reached (browser launch and
page creation succeed), `browser.close()` runs on every exit path —
whether the body returns normally or raises. -/
theorem probe_releases_browser (setup : Setup) (env : Env)
    (hl : setup.launchFault = none) (hp : setup.newPageFault = none) :
    (runMain setup env).browserClosed = true := by
  unfold runMain
  rw [hl, hp]
  cases (runProbe env).err <;> rfl

/-- Witness for C3: the browser is closed even on a failing run. -/
theorem probe_releases_browser_witness :
    (runMain setup0 envRefused).browserClosed = true :=
  probe_releases_browser setup0 envRefused rfl rfl

/-- Claim C4: when the locator's text reference matches more than one
rendered candidate control, the probe does not crash: it focuses exactly
the first matching element in document order and still completes the
whole trace with a single focus. -/
theorem locator_takes_first (env : Env) (b : Element) (rest : List Element)
    (hg : env.gotoFault = none) (hw : env.waitFault = none)
    (hl : env.locateFault = none) (hf : env.focusFault = none)
    (hs : env.screenshotFault = none)
    (hm : hasMarker env.page = true)
    (hmany : matchingButtons env.page = b :: rest) (_hne : rest ≠ []) :
    (runProbe env).err = none ∧
      (runProbe env).effects =
        [Effect.navigated targetUrl, Effect.waitedFor startSelector,
         Effect.focused b, Effect.screenshotTaken screenshotPath] := by
  unfold runProbe
  rw [hg, hw, hm, hl, hf, hmany, hs]
  simp

/-- Witness for C4: the page with two distinct matching controls; the
first one in document order is focused. -/
theorem locator_takes_first_witness :
    (runProbe (nominalEnv page2)).err = none ∧
      (runProbe (nominalEnv page2)).effects =
        [Effect.navigated targetUrl, Effect.waitedFor startSelector,
         Effect.focused santaCard, Effect.screenshotTaken screenshotPath] :=
  locator_takes_first (nominalEnv page2) santaCard [santaCard2]
    rfl rfl rfl rfl rfl (by decide) (by decide) (by decide)

/-- Claim C5: the patch assigns the script-invoked strategy to every
forced pointer click on the four flaky controls: after the patch no
forced-click call on MECHA-SANTA, CYBER-ELF, BUMBLE or COMMENCE OPERATION
remains anywhere in the file, whatever the input, and each such call is
rewritten to its script-invoked (`evaluate`) counterpart. -/
theorem fix_policy_script_invoked :
    (∀ content : List Char, ∀ p ∈ fixSources, ¬ p <:+: fixContent content) ∧
      List.map fixContent fixSources = fixTargets := by
  refine ⟨fun content => fix_no_src content, ?_⟩
  simp only [fixSources, fixTargets, List.map_cons, List.map_nil,
    fixContent_srcMecha, fixContent_srcElf, fixContent_srcBumble,
    fixContent_srcCommenceA, fixContent_srcCommenceB]

/-- Witness for C5: the patched file of a concrete content containing a
forced MECHA-SANTA click no longer contains that call. -/
theorem fix_policy_script_invoked_witness :
    ¬ srcMecha <:+: fixContent (("const x = 1;").data ++ srcMecha) :=
  fix_policy_script_invoked.1 (("const x = 1;").data ++ srcMecha) srcMecha
    (by simp [fixSources])

/-- Claim C6: probe execution is strictly sequential and all-or-nothing:
every effect trace is a prefix of the canonical step order (navigate,
wait, focus, screenshot), and a failure in navigation or in the wait for
the start marker leaves a trace in which the focus and screenshot steps
never appear. -/
theorem probe_steps_sequential (env : Env) :
    ((runProbe env).effects.map effectKind) <+: canonicalOrder ∧
      ((env.gotoFault ≠ none ∨ env.waitFault ≠ none ∨ hasMarker env.page = false) →
        ((runProbe env).effects.map effectKind) <+: [StepKind.navStep]) := by
  obtain ⟨page, g, w, l, f, sc⟩ := env
  constructor
  · unfold runProbe
    cases g with
    | some m => simp
    | none =>
      cases w with
      | some m => simp [canonicalOrder, effectKind]
      | none =>
        cases hm : hasMarker page with
        | false => simp [canonicalOrder, effectKind]
        | true =>
          cases l with
          | some m => simp [canonicalOrder, effectKind]
          | none =>
            cases f with
            | some m => simp [canonicalOrder, effectKind]
            | none =>
              cases hb : (matchingButtons page).head? with
              | none => simp [canonicalOrder, effectKind]
              | some b =>
                cases sc with
                | some m => simp [canonicalOrder, effectKind]
                | none => simp [canonicalOrder, effectKind]
  · intro h
    cases g with
    | some m => simp [runProbe]
    | none =>
      cases w with
      | some m => simp [runProbe, effectKind]
      | none =>
        cases hm : hasMarker page with
        | false => simp [runProbe, hm, effectKind]
        | true =>
          exfalso
          rcases h with h | h | h
          · exact h rfl
          · exact h rfl
          · rw [hm] at h; cases h

/-- Witness for C6: on a failed navigation the trace stops before any
later step. -/
theorem probe_steps_sequential_witness :
    ((runProbe envRefused).effects.map effectKind) <+: canonicalOrder ∧
      ((runProbe envRefused).effects.map effectKind) <+: [StepKind.navStep] :=
  ⟨(probe_steps_sequential envRefused).1,
   (probe_steps_sequential envRefused).2 (Or.inl (by decide))⟩

/-- Counterexample to claim C7 as stated: on a concrete failing run (the
game server refuses the connection) the probe's emitted diagnostic is the
single raw line `Error: net::ERR_CONNECTION_REFUSED ...`; it names none
of the four failure categories and not the element reference, so it is
not a structured report carrying those fields. -/
theorem probe_diag_counterexample :
    (runProbe envRefused).err = some refusedMsg ∧
    (runMain setup0 envRefused).printedLines = [errLine refusedMsg] ∧
    categoryNames.all (fun cat => ! (decide (cat <:+: errLine refusedMsg))) = true ∧
    decide (mechaText <:+: errLine refusedMsg) = false := by
  refine ⟨rfl, rfl, by decide, by decide⟩

/-- Claim C7 amended: on failure the focus probe emits exactly one
diagnostic line consisting of `Error: ` followed by the raw exception
text — not a structured report with step index, element reference and
failure category. -/
theorem probe_diag_is_raw_error_line (setup : Setup) (env : Env) (m : List Char)
    (hl : setup.launchFault = none) (hp : setup.newPageFault = none)
    (he : (runProbe env).err = some m) :
    (runMain setup env).printedLines = [errLine m] := by
  unfold runMain
  rw [hl, hp, he]

/-- Witness for the amended C7. -/
theorem probe_diag_is_raw_error_line_witness :
    (runMain setup0 envRefused).printedLines = [errLine refusedMsg] :=
  probe_diag_is_raw_error_line setup0 envRefused refusedMsg rfl rfl rfl

/-- Counterexample to claim C8 as stated: a run of the patch script
writes `e2e/full-gameplay.spec.ts`, which is not the screenshot path, so
the screenshot is not the only file the program writes. -/
theorem writes_counterexample :
    tsFilePath ∈ (runFixTests (("x").data)).2 ∧ ¬ (tsFilePath = screenshotPath) :=
  ⟨by simp [runFixTests], by decide⟩

/-- Claim C8 amended: the focus probe writes at most the screenshot at
the configured path, and the patch script writes exactly the scenario
file it rewrites in place; no other file is written. -/
theorem writes_amended (env : Env) (c : List Char) :
    (probeWrites env = [] ∨ probeWrites env = [screenshotPath]) ∧
      (runFixTests c).2 = [tsFilePath] := by
  refine ⟨?_, rfl⟩
  obtain ⟨page, g, w, l, f, sc⟩ := env
  unfold probeWrites runProbe
  cases g with
  | some m => simp
  | none =>
    cases w with
    | some m => simp
    | none =>
      cases hm : hasMarker page with
      | false => simp
      | true =>
        cases l with
        | some m => simp
        | none =>
          cases f with
          | some m => simp
          | none =>
            cases hb : (matchingButtons page).head? with
            | none => simp
            | some b =>
              cases sc with
              | some m => simp
              | none => simp

/-- Claim C9: the patch transformation is idempotent — applying the chain
of five string replacements twice yields exactly the content of applying
it once, for every input file content. -/
theorem fix_patch_idempotent (content : List Char) :
    fixContent (fixContent content) = fixContent content :=
  fix_idem content

/-- Claim C10: the patch only touches the five listed click-call strings.
For every content decomposed as `x1 ++ p1 ++ ... ++ xk ++ pk ++ tl` with
the `pi` click calls and the portions `xi`, `tl` free of occurrences, the
output is `x1 ++ t1 ++ ... ++ xk ++ tk ++ tl`: every portion that is not
an occurrence — indentation and trailing text of a line with a call
included — is preserved character for character, and a content with no
occurrence at all is written back identical to what was read.  The
transformation moreover acts line by line. -/
theorem fix_preserves_unmatched_content :
    (∀ pieces : List (List Char × List Char), ∀ tl : List Char,
      (∀ piece ∈ pieces, occFree piece.1 ∧ piece.2 ∈ fixSources) → occFree tl →
      fixContent (interleave pieces tl) =
        interleave (pieces.map (fun piece => (piece.1, replacedPiece piece.2))) tl) ∧
      (∀ content : List Char, occFree content → fixContent content = content) ∧
      (∀ L : List (List Char), fixContent (joinLines L) = joinLines (L.map fixContent)) :=
  ⟨fix_interleave, fun content h => fix_frame content h, fixContent_joinLines⟩

/-- Witness for C10: a content holding a forced MECHA-SANTA click behind
four spaces of indentation and a forced COMMENCE OPERATION click after
further text keeps all surrounding characters and rewrites exactly the
two calls; an occurrence-free content is returned unchanged; a two-line
file is mapped line-wise. -/
theorem fix_preserves_unmatched_content_witness :
    fixContent
        (interleave [(("    ").data, srcMecha), ((" and then ").data, srcCommenceB)]
          ((" // end").data)) =
      interleave [(("    ").data, dstMecha), ((" and then ").data, dstCommence)]
        ((" // end").data) ∧
    fixContent (("describe(test)").data) = ("describe(test)").data ∧
    fixContent (joinLines [("const a = 1;").data, ("const b = 2;").data]) =
      joinLines (List.map fixContent [("const a = 1;").data, ("const b = 2;").data]) := by
  refine ⟨?_,
    fix_preserves_unmatched_content.2.1 (("describe(test)").data) (by decide),
    fix_preserves_unmatched_content.2.2 [("const a = 1;").data, ("const b = 2;").data]⟩
  have h := fix_preserves_unmatched_content.1
    [(("    ").data, srcMecha), ((" and then ").data, srcCommenceB)] ((" // end").data)
    (by decide) (by decide)
  rw [h, List.map_cons, List.map_cons, List.map_nil]
  rw [show replacedPiece srcMecha = dstMecha by decide,
      show replacedPiece srcCommenceB = dstCommence by decide]

end SilentNight
